import Mathlib

/-!
Shallow embedding of the dislog segmented commit log
(`internal/log/store.go`, `index.go`, `segment.go`, `log.go`) and of the
gRPC `ConsumeStream` handler (`internal/server/server.go`).

Modelling conventions:
* Bytes are naturals (each intended `< 256`); files and mmaps are `List Nat`.
* Machine-integer wraparound is made explicit where the code's behaviour
  depends on it for in-range values: `uint64` subtraction (`u64sub`),
  `int64`-of-`uint64` reinterpretation (`i64ofU64`) and `uint32`
  truncation (`% U32`).  Offsets themselves are naturals; runs that
  overflow `2^64` additions are outside the modelled state space and the
  well-formedness predicates bound the relevant quantities.
* Go errors are the `GoErr` inductive; fallible operations return `Except`.
  A nil active-segment dereference (a Go panic) is modelled as the
  distinguished error `GoErr.nilSegment`.
* `proto.Marshal` / `proto.Unmarshal` come from an external library; they
  are modelled as a concrete injective serialization that stores the
  record's stamped offset followed by its value bytes, which is the only
  property of the wire format the log code relies on.
-/

namespace Dislog

/-- Two to the sixty-fourth, the modulus of Go's `uint64`. -/
def U64 : Nat := 2 ^ 64

/-- Two to the thirty-second, the modulus of Go's `uint32`. -/
def U32 : Nat := 2 ^ 32

/-- Big-endian encoding of `n` into `w` bytes (low `8*w` bits of `n`),
most significant byte first — `encoding/binary.BigEndian`. -/
def encBE : Nat → Nat → List Nat
  | 0, _ => []
  | w + 1, n => encBE w (n / 256) ++ [n % 256]

/-- Big-endian decoding of a byte list — `encoding/binary.BigEndian`. -/
def decBE (bs : List Nat) : Nat := bs.foldl (fun a b => 256 * a + b) 0

/-- Width of the length prefix in the store file (`lenWidth` in store.go). -/
def lenWidth : Nat := 8

/-- Bytes of the relative-offset field of an index entry (`offWidth`). -/
def offWidth : Nat := 4

/-- Bytes of the position field of an index entry (`posWidth`). -/
def posWidth : Nat := 8

/-- Total bytes of one index entry (`entWidth = offWidth + posWidth`). -/
def entWidth : Nat := offWidth + posWidth

/-- Errors surfaced by the modelled code: `io.EOF`,
`api.ErrOffsetOutOfRange{Offset}`, and a marker for the Go nil-pointer
panic that operating on a log with no segments would cause. -/
inductive GoErr where
  | eof
  | offsetOutOfRange (offset : Nat)
  | nilSegment
deriving DecidableEq, Repr

/-- An `api.Record`: the fields the log engine reads and writes
(`Offset` and `Value`). -/
structure Record where
  offset : Nat
  value : List Nat
deriving DecidableEq, Repr

/-- Model of `proto.Marshal` on a `Record`: an injective serialization
carrying the stamped offset (8 bytes, big-endian, mod `2^64` as a Go
`uint64`) followed by the value bytes. -/
def protoMarshal (r : Record) : List Nat := encBE 8 r.offset ++ r.value

/-- Model of `proto.Unmarshal` on a `Record`, inverse of `protoMarshal`. -/
def protoUnmarshal (bs : List Nat) : Record :=
  { offset := decBE (bs.take 8), value := bs.drop 8 }

/-- The `store` struct: the append-only file's bytes plus the in-memory
`size` counter (store.go keeps `size` separately from the file). -/
structure Store where
  bytes : List Nat
  size : Nat
deriving DecidableEq, Repr

/-- `store.Append`: records `pos := size`, writes the 8-byte big-endian
length prefix then the payload, advances `size` by `lenWidth + len p`,
and returns `(bytes written, pos)` with the new store. -/
def Store.Append (s : Store) (p : List Nat) : Nat × Nat × Store :=
  let pos := s.size
  let w := p.length + lenWidth
  (w, pos, { bytes := s.bytes ++ encBE 8 p.length ++ p, size := s.size + w })

/-- `store.Read`: reads the 8-byte length prefix at `pos`, then that many
payload bytes at `pos + lenWidth`; a positional read past the end of the
file is the `io.EOF` family of errors. -/
def Store.Read (s : Store) (pos : Nat) : Except GoErr (List Nat) :=
  if s.bytes.length < pos + lenWidth then .error .eof
  else
    let n := decBE ((s.bytes.drop pos).take lenWidth)
    if s.bytes.length < pos + lenWidth + n then .error .eof
    else .ok ((s.bytes.drop (pos + lenWidth)).take n)

/-- The `index` struct: the memory-mapped file contents and the logical
`size` (only the first `size` bytes are populated). -/
structure Index where
  mmap : List Nat
  size : Nat
deriving DecidableEq, Repr

/-- Overwrite the bytes of `m` starting at `start` with `bs` (the effect
of `enc.PutUint32`/`enc.PutUint64` into the mmap). -/
def setBytes (m : List Nat) (start : Nat) (bs : List Nat) : List Nat :=
  m.take start ++ bs ++ m.drop (start + bs.length)

/-- `index.Read`: empty index yields `io.EOF`; `in = -1` selects the last
entry, otherwise `out := uint32(in)` (low 32 bits of the `int64`);
reading past the populated prefix yields `io.EOF`; else decode the
4-byte relative offset and the 8-byte store position at entry `out`. -/
def Index.Read (i : Index) (inp : Int) : Except GoErr (Nat × Nat) :=
  if i.size = 0 then .error .eof
  else
    let out : Nat := if inp = -1 then i.size / entWidth - 1
                     else (inp % (U32 : Int)).toNat
    let pos := out * entWidth
    if i.size < pos + entWidth then .error .eof
    else .ok (decBE ((i.mmap.drop pos).take offWidth),
              decBE ((i.mmap.drop (pos + offWidth)).take posWidth))

/-- `index.Write`: `io.EOF` if the mmap lacks room for one more entry;
otherwise write the 4-byte offset and 8-byte position at byte `size` and
advance `size` by `entWidth`. -/
def Index.Write (i : Index) (off pos : Nat) : Except GoErr Index :=
  if i.mmap.length < i.size + entWidth then .error .eof
  else .ok { mmap := setBytes i.mmap i.size (encBE 4 off ++ encBE 8 pos),
             size := i.size + entWidth }

/-- Modelled from the spec: `index.IsMaxed` is referenced by
`segment.IsMaxed` but its definition is not among the provided sources;
spec §4.B says `is_maxed(): returns true when the next write would
overflow`. -/
def Index.IsMaxed (i : Index) : Bool := i.mmap.length < i.size + entWidth

/-- `index.Close` syncs the mmap and truncates the file to the logical
`size`; the resulting on-disk index file is the populated prefix. -/
def Index.Close (i : Index) : List Nat := i.mmap.take i.size

/-- The segment-relevant part of `Config` (`Config.Segment`). -/
structure Config where
  MaxStoreBytes : Nat
  MaxIndexBytes : Nat
  InitialOffset : Nat
deriving DecidableEq, Repr

/-- The `segment` struct. -/
structure Segment where
  store : Store
  index : Index
  baseOffset : Nat
  nextOffset : Nat
  config : Config
deriving DecidableEq, Repr

/-- Go `uint64` subtraction `a - b` for in-range operands: wraps modulo
`2^64` when `b > a`. -/
def u64sub (a b : Nat) : Nat := if b ≤ a then a - b else a + U64 - b

/-- Reinterpret a `uint64` value as Go's `int64` (two's complement). -/
def i64ofU64 (n : Nat) : Int := if n < 2 ^ 63 then (n : Int) else (n : Int) - (U64 : Int)

/-- `segment.Append`: stamp `record.Offset := nextOffset`, marshal, append
to the store, write the index entry `uint32(nextOffset - baseOffset)`
with the store position, and only then increment `nextOffset`.  When the
index write fails the store mutation has already happened but
`nextOffset` is left unchanged, exactly as in the Go code. -/
def Segment.Append (s : Segment) (r : Record) : Except GoErr Nat × Segment :=
  let cur := s.nextOffset
  let p := protoMarshal { r with offset := cur }
  let a := s.store.Append p
  let pos := a.2.1
  let store' := a.2.2
  match s.index.Write (u64sub s.nextOffset s.baseOffset % U32) pos with
  | .error e => (.error e, { s with store := store' })
  | .ok idx' => (.ok cur,
      { s with store := store', index := idx', nextOffset := s.nextOffset + 1 })

/-- `segment.Read`: look up `int64(off - baseOffset)` in the index (Go
`uint64` subtraction then `int64` reinterpretation), read the store at
the returned position, unmarshal. -/
def Segment.Read (s : Segment) (off : Nat) : Except GoErr Record :=
  match s.index.Read (i64ofU64 (u64sub off s.baseOffset)) with
  | .error e => .error e
  | .ok (_, pos) =>
    match s.store.Read pos with
    | .error e => .error e
    | .ok p => .ok (protoUnmarshal p)

/-- `segment.IsMaxed`: store at or past `MaxStoreBytes`, or index at or
past `MaxIndexBytes`, or the index cannot hold a further entry. -/
def Segment.IsMaxed (s : Segment) : Bool :=
  decide (s.config.MaxStoreBytes ≤ s.store.size) ||
  decide (s.config.MaxIndexBytes ≤ s.index.size) ||
  s.index.IsMaxed

/-- `newSegment` on a directory holding no files for `base`: empty store;
index file created empty then truncated (zero-extended) to
`MaxIndexBytes` before mapping; `index.Read(-1)` fails on the empty
index so `nextOffset := baseOffset`. -/
def newSegmentFresh (base : Nat) (c : Config) : Segment :=
  { store := { bytes := [], size := 0 },
    index := { mmap := List.replicate c.MaxIndexBytes 0, size := 0 },
    baseOffset := base, nextOffset := base, config := c }

/-- `newSegment` reopening existing files: the store's `size` is the file
length; the index's logical `size` is the file length as measured before
the file is truncated to `MaxIndexBytes` (shrinking or zero-extending)
and mapped; `nextOffset` is recovered from `index.Read(-1)`:
`baseOffset` when the read fails, else `baseOffset + rel + 1`. -/
def newSegmentFromFiles (storeFile indexFile : List Nat) (base : Nat)
    (c : Config) : Segment :=
  let idx : Index :=
    { mmap := indexFile.take c.MaxIndexBytes ++
              List.replicate (c.MaxIndexBytes - indexFile.length) 0,
      size := indexFile.length }
  let next : Nat :=
    match idx.Read (-1) with
    | .error _ => base
    | .ok (out, _) => base + out + 1
  { store := { bytes := storeFile, size := storeFile.length },
    index := idx, baseOffset := base, nextOffset := next, config := c }

/-- Closing a segment flushes the store (its file is exactly `bytes`) and
truncates the index file to its logical size; reopening runs
`newSegment` on those files with the same base offset and config. -/
def reopenSegment (s : Segment) : Segment :=
  newSegmentFromFiles s.store.bytes s.index.Close s.baseOffset s.config

/-- The `Log` struct.  The `activeSegment` pointer always designates the
last element of `segments` (maintained by `setup`, `Append` and
`newSegment`); it is modelled structurally as `segments.getLast?`.  A log
whose segment list is empty (reachable only through a `Truncate` that
removed every segment, after which the Go code would act through a stale
pointer or panic) makes the operations below return `GoErr.nilSegment`. -/
structure Log where
  segments : List Segment
  config : Config
deriving DecidableEq, Repr

/-- The search predicate of `Log.Read`'s loop:
`segment.baseOffset <= off && off < segment.nextOffset`. -/
def coverB (off : Nat) (s : Segment) : Bool :=
  decide (s.baseOffset ≤ off) && decide (off < s.nextOffset)

/-- `Log.Append`: delegate to the active segment; on success, if the
active segment is now maxed, create a fresh segment at `off + 1` and
make it active (append it last). -/
def Log.Append (l : Log) (r : Record) : Except GoErr Nat × Log :=
  match l.segments.getLast? with
  | none => (.error .nilSegment, l)
  | some act =>
    match act.Append r with
    | (.error e, act') => (.error e, { l with segments := l.segments.dropLast ++ [act'] })
    | (.ok off, act') =>
      if act'.IsMaxed then
        (.ok off, { l with segments :=
          (l.segments.dropLast ++ [act']) ++ [newSegmentFresh (off + 1) l.config] })
      else (.ok off, { l with segments := l.segments.dropLast ++ [act'] })

/-- `Log.Read`: linear scan for the first segment with
`baseOffset ≤ off < nextOffset`; `ErrOffsetOutOfRange{off}` when none is
found (the Go code rechecks `s.nextOffset <= off`, kept here verbatim);
else delegate to that segment. -/
def Log.Read (l : Log) (off : Nat) : Except GoErr Record :=
  match l.segments.find? (coverB off) with
  | none => .error (.offsetOutOfRange off)
  | some s => if s.nextOffset ≤ off then .error (.offsetOutOfRange off) else s.Read off

/-- `Log.HighestOffset`: `off := segments.last.nextOffset`; `0` when that
is `0`, else `off - 1`. -/
def Log.HighestOffset (l : Log) : Except GoErr Nat :=
  match l.segments.getLast? with
  | none => .error .nilSegment
  | some s => if s.nextOffset = 0 then .ok 0 else .ok (s.nextOffset - 1)

/-- `Log.LowestOffset`: the first segment's `baseOffset`. -/
def Log.LowestOffset (l : Log) : Except GoErr Nat :=
  match l.segments.head? with
  | none => .error .nilSegment
  | some s => .ok s.baseOffset

/-- `Log.Truncate`: remove every segment whose `nextOffset ≤ lowest + 1`,
keeping the survivors in order. -/
def Log.Truncate (l : Log) (lowest : Nat) : Log :=
  { l with segments := l.segments.filter (fun s => !decide (s.nextOffset ≤ lowest + 1)) }

/-- `NewLog` on a fresh (empty) directory: default `MaxStoreBytes` and
`MaxIndexBytes` to 1024 when zero; `setup` finds no files and creates
one fresh segment at `InitialOffset`. -/
def NewLog (c : Config) : Log :=
  let c' := { c with
    MaxStoreBytes := if c.MaxStoreBytes = 0 then 1024 else c.MaxStoreBytes,
    MaxIndexBytes := if c.MaxIndexBytes = 0 then 1024 else c.MaxIndexBytes }
  { segments := [newSegmentFresh c'.InitialOffset c'], config := c' }

/-- Clean close of every segment followed by `setup` reopening each
segment file pair from the same directory (same base offsets, in
order). -/
def reopenLog (l : Log) : Log :=
  { l with segments := l.segments.map reopenSegment }

/-- Well-formedness of a segment state, as established by `newSegment`
and preserved by successful appends: offsets are ordered and in `uint64`
range, the record count fits the index's 32-bit relative offsets (spec
§3: 4 bytes suffice until a segment holds `2^32` records), the store's
`size` mirrors its file, the index's logical size is exactly one entry
per record, the mmap is the pre-allocated `MaxIndexBytes` and entry `i`
stores relative offset `i`. -/
def wfSegment (s : Segment) : Prop :=
  s.baseOffset ≤ s.nextOffset ∧
  s.nextOffset - s.baseOffset < U32 ∧
  s.nextOffset < U64 ∧
  s.store.size = s.store.bytes.length ∧
  s.store.bytes.length < U64 ∧
  s.index.size = entWidth * (s.nextOffset - s.baseOffset) ∧
  s.index.size ≤ s.index.mmap.length ∧
  s.index.mmap.length = s.config.MaxIndexBytes ∧
  (∀ i, i < s.nextOffset - s.baseOffset →
    decBE ((s.index.mmap.drop (entWidth * i)).take offWidth) = i)

/-- Well-formedness of a log: every segment is well-formed and segments
are ordered with disjoint offset ranges (`segments[i+1].baseOffset ≥
segments[i].nextOffset`). -/
def wfLog (l : Log) : Prop :=
  (∀ s ∈ l.segments, wfSegment s) ∧
  l.segments.Pairwise (fun a b => a.nextOffset ≤ b.baseOffset)

instance (s : Segment) : Decidable (wfSegment s) := by
  unfold wfSegment; infer_instance

instance (l : Log) : Decidable (wfLog l) := by
  unfold wfLog; infer_instance

/-! ### The `ConsumeStream` handler (server.go)

One loop iteration of `grpcServer.ConsumeStream` depends on the
environment through three observations: whether the stream context's
`Done` channel fired, the result of `s.Consume` for the current request
offset, and the result of `stream.Send`. -/

instance {ε α : Type} [DecidableEq ε] [DecidableEq α] : DecidableEq (Except ε α) := fun x y =>
  match x, y with
  | .ok a, .ok b => decidable_of_iff (a = b) (by simp)
  | .error e, .error f => decidable_of_iff (e = f) (by simp)
  | .ok _, .error _ => isFalse (by simp)
  | .error _, .ok _ => isFalse (by simp)

/-- Environment of one `ConsumeStream` loop iteration. -/
structure StreamInput where
  ctxDone : Bool
  consume : Except GoErr Record
  sendErr : Option GoErr
deriving DecidableEq, Repr

/-- Outcome of one `ConsumeStream` loop iteration: the handler returns
(`ret none` is a nil error) or loops with the request offset it will
consume next. -/
inductive StepResult where
  | ret (e : Option GoErr)
  | cont (reqOffset : Nat)
deriving DecidableEq, Repr

/-- One iteration of the `ConsumeStream` loop: `select` observes
`ctx.Done` and returns nil; otherwise `Consume` runs — a nil error falls
through to `Send`, `api.ErrOffsetOutOfRange` makes the loop `continue`
without touching `req.Offset`, any other error is returned; a `Send`
error is returned; after a successful send `req.Offset++`. -/
def consumeStreamStep (inp : StreamInput) (reqOffset : Nat) : StepResult :=
  if inp.ctxDone then .ret none
  else
    match inp.consume with
    | .error (.offsetOutOfRange _) => .cont reqOffset
    | .error e => .ret (some e)
    | .ok _ =>
      match inp.sendErr with
      | some e => .ret (some e)
      | none => .cont (reqOffset + 1)

/-- Run the `ConsumeStream` loop over a finite prefix of environment
observations: `(some e, off)` means the handler returned with error `e`
(`none` is Go's nil) while at request offset `off`; `(none, off)` means
the loop is still running at request offset `off`. -/
def consumeStreamRun : List StreamInput → Nat → Option (Option GoErr) × Nat
  | [], off => (none, off)
  | inp :: rest, off =>
    match consumeStreamStep inp off with
    | .ret e => (some e, off)
    | .cont off' => consumeStreamRun rest off'

/-! ### Concrete states used by witnesses and counterexamples -/

/-- A config whose 18-byte store cap holds exactly two 17-byte entries
(records with a one-byte value marshal to 9 bytes, plus the 8-byte
length prefix). -/
def cfgA : Config := ⟨18, 36, 0⟩

/-- A fresh log under `cfgA`. -/
def logA0 : Log := NewLog cfgA

/-- The record with value `[10 + i]` appended as offset `i` below. -/
def recA (i : Nat) : Record := ⟨0, [10 + i]⟩

/-- `logA0` after appending `recA 0`. -/
def logA1 : Log := (logA0.Append (recA 0)).2

/-- `logA1` after appending `recA 1`. -/
def logA2 : Log := (logA1.Append (recA 1)).2

/-- `logA2` after appending `recA 2`. -/
def logA3 : Log := (logA2.Append (recA 2)).2

/-- `logA3` after appending `recA 3`: offsets 0..3 in segments with base
offsets 0 and 2, plus a fresh active segment at base 4. -/
def logA4 : Log := (logA3.Append (recA 3)).2

/-- A config whose 5-byte index mmap cannot hold a single 12-byte entry,
so every append fails its index write. -/
def cfgTinyIdx : Config := ⟨24, 5, 0⟩

/-! ### Byte-encoding lemmas -/

theorem encBE_length (w n : Nat) : (encBE w n).length = w := by
  induction w generalizing n with
  | zero => rfl
  | succ w ih => simp [encBE, ih]

theorem decBE_encBE (w n : Nat) : decBE (encBE w n) = n % 256 ^ w := by
  induction w generalizing n with
  | zero => simp [encBE, decBE, Nat.mod_one]
  | succ w ih =>
    have : decBE (encBE w (n / 256) ++ [n % 256]) =
        256 * decBE (encBE w (n / 256)) + n % 256 := by
      simp [decBE, List.foldl_append]
    rw [encBE, this, ih]
    have h256 : (256 : Nat) ^ (w + 1) = 256 * 256 ^ w := by ring
    rw [h256, Nat.mod_mul]
    omega

theorem u32_eq : U32 = 256 ^ 4 := by norm_num [U32]

theorem u64_eq : U64 = 256 ^ 8 := by norm_num [U64]

/-! ### List helper lemmas -/

theorem drop_append_len {α : Type} (A B : List α) (k : Nat) :
    (A ++ B).drop (A.length + k) = B.drop k := by
  rw [← List.drop_drop, List.drop_left]

theorem take_append_enc {α : Type} (A B : List α) (k : Nat) (h : A.length = k) :
    (A ++ B).take k = A := by
  subst h; exact List.take_left A B

theorem drop_take_append {α : Type} (A B : List α) (p k : Nat)
    (h : p + k ≤ A.length) : ((A ++ B).drop p).take k = (A.drop p).take k := by
  have hp : p ≤ A.length := by omega
  have : (A ++ B).drop p = A.drop p ++ B := by
    rw [List.drop_append_of_le_length hp]
  rw [this]
  have hl : k ≤ (A.drop p).length := by
    simp [List.length_drop]; omega
  rw [List.take_append_of_le_length hl]

theorem find?_append_none {α : Type} (p : α → Bool) (xs ys : List α)
    (h : ∀ x ∈ xs, p x = false) : (xs ++ ys).find? p = ys.find? p := by
  induction xs with
  | nil => rfl
  | cons a t ih =>
    have ha : p a = false := h a (by simp)
    simp only [List.cons_append]
    rw [List.find?_cons_of_neg _ (by simp [ha])]
    exact ih (fun x hx => h x (by simp [hx]))

theorem eq_dropLast_append {α : Type} (xs : List α) (a : α)
    (h : xs.getLast? = some a) : xs = xs.dropLast ++ [a] :=
  (List.dropLast_append_getLast? a h).symm

/-! ### Shapes of `segment.Append` and `Log.Append` results -/

theorem Segment.Append_ok_spec (s : Segment) (r : Record) (off : Nat) (s' : Segment)
    (h : s.Append r = (.ok off, s')) :
    off = s.nextOffset ∧
    s.index.size + entWidth ≤ s.index.mmap.length ∧
    s'.store.bytes = s.store.bytes ++
      encBE 8 (protoMarshal { r with offset := s.nextOffset }).length ++
      protoMarshal { r with offset := s.nextOffset } ∧
    s'.store.size = s.store.size +
      ((protoMarshal { r with offset := s.nextOffset }).length + lenWidth) ∧
    s'.index.mmap = setBytes s.index.mmap s.index.size
      (encBE 4 (u64sub s.nextOffset s.baseOffset % U32) ++ encBE 8 s.store.size) ∧
    s'.index.size = s.index.size + entWidth ∧
    s'.baseOffset = s.baseOffset ∧
    s'.nextOffset = s.nextOffset + 1 ∧
    s'.config = s.config := by
  unfold Segment.Append Store.Append Index.Write at h
  by_cases hc : s.index.mmap.length < s.index.size + entWidth
  · simp [hc] at h
  · simp [hc] at h
    obtain ⟨h1, h2⟩ := h
    subst h2
    exact ⟨h1.symm, by omega, by simp, by simp, rfl, rfl, rfl, rfl, rfl⟩

theorem Segment.Append_err_spec (s : Segment) (r : Record) (e : GoErr) (s' : Segment)
    (h : s.Append r = (.error e, s')) :
    s'.nextOffset = s.nextOffset ∧ s'.baseOffset = s.baseOffset ∧
    s'.index = s.index ∧ s'.config = s.config := by
  unfold Segment.Append Store.Append Index.Write at h
  by_cases hc : s.index.mmap.length < s.index.size + entWidth
  · simp [hc] at h
    obtain ⟨h1, h2⟩ := h
    subst h2
    exact ⟨rfl, rfl, rfl, rfl⟩
  · simp [hc] at h

theorem Log.Append_ok_shape (l : Log) (r : Record) (off : Nat) (l' : Log)
    (h : l.Append r = (.ok off, l')) :
    ∃ act act', l.segments.getLast? = some act ∧
      act.Append r = (.ok off, act') ∧ l'.config = l.config ∧
      ((act'.IsMaxed = true ∧
        l'.segments = (l.segments.dropLast ++ [act']) ++
          [newSegmentFresh (off + 1) l.config]) ∨
       (act'.IsMaxed = false ∧ l'.segments = l.segments.dropLast ++ [act'])) := by
  unfold Log.Append at h
  cases hl : l.segments.getLast? with
  | none =>
    simp only [hl] at h
    exact absurd h (by simp)
  | some act =>
    cases ha : act.Append r with
    | mk res act' =>
      simp only [hl, ha] at h
      cases res with
      | error e => simp at h
      | ok o =>
        by_cases hm : act'.IsMaxed
        · simp only [hm, if_pos] at h
          simp only [Prod.mk.injEq, Except.ok.injEq] at h
          obtain ⟨h1, h2⟩ := h
          subst h1
          exact ⟨act, act', rfl, ha, by rw [← h2],
            Or.inl ⟨hm, by rw [← h2]⟩⟩
        · simp only [hm, if_neg, Bool.false_eq_true, reduceIte] at h
          simp only [Prod.mk.injEq, Except.ok.injEq] at h
          obtain ⟨h1, h2⟩ := h
          subst h1
          exact ⟨act, act', rfl, ha, by rw [← h2],
            Or.inr ⟨by simp [hm], by rw [← h2]⟩⟩

/-! ### Width and encoding facts -/

theorem entWidth_eq : entWidth = 12 := rfl

theorem offWidth_eq : offWidth = 4 := rfl

theorem posWidth_eq : posWidth = 8 := rfl

theorem lenWidth_eq : lenWidth = 8 := rfl

theorem protoMarshal_length (r : Record) :
    (protoMarshal r).length = 8 + r.value.length := by
  simp [protoMarshal, encBE_length]

theorem take_enc_append (w n : Nat) (B : List Nat) :
    (encBE w n ++ B).take w = encBE w n :=
  take_append_enc _ _ _ (encBE_length w n)

theorem drop_append_of_len {α : Type} (A B : List α) (k : Nat)
    (h : A.length = k) : (A ++ B).drop k = B := by
  subst h; exact List.drop_left A B

theorem drop_append_add {α : Type} (A B : List α) (m k : Nat)
    (h : A.length = m) : (A ++ B).drop (m + k) = B.drop k := by
  subst h; exact drop_append_len A B k

theorem drop_enc_append (w n : Nat) (B : List Nat) :
    (encBE w n ++ B).drop w = B :=
  drop_append_of_len _ _ _ (encBE_length w n)

theorem protoUnmarshal_protoMarshal (r : Record) (h : r.offset < U64) :
    protoUnmarshal (protoMarshal r) = r := by
  unfold protoMarshal protoUnmarshal
  rw [take_enc_append, drop_enc_append, decBE_encBE, ← u64_eq,
    Nat.mod_eq_of_lt h]

theorem u64sub_of_le (a b : Nat) (h : b ≤ a) : u64sub a b = a - b :=
  if_pos h

/-- Reduction of `index.Read` at a nonnegative in-range entry number. -/
theorem Index.Read_nat (i : Index) (k : Nat) (hk : k < U32)
    (hsz : k * entWidth + entWidth ≤ i.size) :
    i.Read (k : Int) = .ok (decBE ((i.mmap.drop (k * entWidth)).take offWidth),
      decBE ((i.mmap.drop (k * entWidth + offWidth)).take posWidth)) := by
  unfold Index.Read
  rw [entWidth_eq] at hsz
  rw [if_neg (by omega : ¬ i.size = 0)]
  have hne : ¬ ((k : Int) = -1) := by omega
  have hmod : ((k : Int) % (U32 : Int)).toNat = k := by
    rw [Int.emod_eq_of_lt (by positivity) (by exact_mod_cast hk)]
    exact Int.toNat_natCast k
  simp only [hne, if_false, hmod, entWidth_eq]
  rw [if_neg (by omega : ¬ i.size < k * 12 + 12)]

/-- The heart of the append/read round trip: a successful `segment.Append`
of `r` at offset `off` makes `segment.Read off` return the record
`{offset := off, value := r.value}`. -/
theorem Segment.append_read (s : Segment) (r : Record) (off : Nat) (s' : Segment)
    (hwf : wfSegment s) (hv : r.value.length + lenWidth < U64)
    (h : s.Append r = (.ok off, s')) :
    s'.Read off = .ok { offset := off, value := r.value } := by
  obtain ⟨hbn, hcnt, hnlt, hss, hslt, his, hsle, hml, hrel⟩ := hwf
  obtain ⟨hoff, hroom, hsb, hssz, him, hisz, hbase, hnext, hcfg⟩ :=
    Segment.Append_ok_spec s r off s' h
  rw [entWidth_eq] at hroom hisz
  rw [entWidth_eq] at his
  set n := s.nextOffset - s.baseOffset with hn
  set P : List Nat := protoMarshal { r with offset := s.nextOffset } with hP
  have hPlen : P.length = 8 + r.value.length := protoMarshal_length _
  -- the index entry written by the append
  have hrel32 : u64sub s.nextOffset s.baseOffset % U32 = n := by
    rw [u64sub_of_le _ _ hbn, Nat.mod_eq_of_lt hcnt]
  have him' : s'.index.mmap = s.index.mmap.take (12 * n) ++
      ((encBE 4 n ++ encBE 8 s.store.size) ++ s.index.mmap.drop (12 * n + 12)) := by
    rw [him, hrel32, setBytes, his]
    simp [encBE_length, List.append_assoc]
  have htk_len : (s.index.mmap.take (12 * n)).length = 12 * n := by
    simp only [List.length_take]
    omega
  -- reduce the index lookup
  have hsub : u64sub off s.baseOffset = n := by
    rw [hoff, u64sub_of_le _ _ hbn]
  have hint : i64ofU64 n = (n : Int) := by
    have h63 : n < 2 ^ 63 := lt_trans hcnt (by norm_num [U32])
    unfold i64ofU64
    rw [if_pos h63]
  have hread_idx : s'.index.Read ((n : Nat) : Int) = .ok (n, s.store.size) := by
    rw [Index.Read_nat s'.index n hcnt
      (by rw [entWidth_eq, hisz, his]; omega)]
    rw [entWidth_eq, offWidth_eq, posWidth_eq]
    have hd1 : s'.index.mmap.drop (n * 12) =
        (encBE 4 n ++ encBE 8 s.store.size) ++ s.index.mmap.drop (12 * n + 12) := by
      rw [him', Nat.mul_comm n 12]
      exact drop_append_of_len _ _ _ htk_len
    have hd2 : s'.index.mmap.drop (n * 12 + 4) =
        encBE 8 s.store.size ++ s.index.mmap.drop (12 * n + 12) := by
      rw [him', Nat.mul_comm n 12, drop_append_add _ _ _ 4 htk_len]
      rw [List.append_assoc, drop_enc_append]
    rw [hd1, hd2]
    rw [List.append_assoc, take_enc_append, take_enc_append]
    rw [decBE_encBE, decBE_encBE, ← u32_eq, ← u64_eq,
      Nat.mod_eq_of_lt hcnt, Nat.mod_eq_of_lt (by omega : s.store.size < U64)]
  -- reduce the store read
  have hread_store : s'.store.Read s.store.size = .ok P := by
    unfold Store.Read
    rw [lenWidth_eq] at hv ⊢
    have hlen' : s'.store.bytes.length = s.store.bytes.length + 8 + P.length := by
      rw [hsb]
      simp [encBE_length]
      omega
    rw [if_neg (by omega : ¬ s'.store.bytes.length < s.store.size + 8)]
    have hd1 : s'.store.bytes.drop s.store.size = encBE 8 P.length ++ P := by
      rw [hsb, hss, List.append_assoc, List.drop_left]
    have hdec : decBE ((s'.store.bytes.drop s.store.size).take 8) = P.length := by
      rw [hd1, take_enc_append, decBE_encBE, ← u64_eq,
        Nat.mod_eq_of_lt (by omega : P.length < U64)]
    rw [hdec]
    rw [if_neg (by omega : ¬ s'.store.bytes.length < s.store.size + 8 + P.length)]
    have hd2 : s'.store.bytes.drop (s.store.size + 8) = P := by
      rw [hsb, hss, List.append_assoc, drop_append_add _ _ _ 8 rfl,
        drop_enc_append]
    rw [hd2, List.take_length]
  -- assemble
  unfold Segment.Read
  rw [hbase, hsub, hint, hread_idx]
  simp only []
  rw [hread_store]
  simp only []
  rw [hP, protoUnmarshal_protoMarshal _ (by simpa using hnlt), hoff]

/-! ### Log-level consequences of a successful append -/

theorem coverB_true_iff (off : Nat) (s : Segment) :
    coverB off s = true ↔ s.baseOffset ≤ off ∧ off < s.nextOffset := by
  simp [coverB]

theorem highest_after_append (l : Log) (r : Record) (off : Nat) (l' : Log)
    (h : l.Append r = (.ok off, l')) : l'.HighestOffset = .ok off := by
  obtain ⟨act, act', hl, ha, hcfg, hcases⟩ := Log.Append_ok_shape l r off l' h
  obtain ⟨hoff, _, _, _, _, _, _, hnext, _⟩ := Segment.Append_ok_spec act r off act' ha
  unfold Log.HighestOffset
  rcases hcases with ⟨hm, hsegs⟩ | ⟨hm, hsegs⟩
  · rw [hsegs, List.getLast?_concat]
    change (if off + 1 = 0 then Except.ok 0
      else Except.ok (off + 1 - 1)) = Except.ok off
    rw [if_neg (by omega : ¬ off + 1 = 0)]
    simp
  · rw [hsegs, List.getLast?_concat]
    change (if act'.nextOffset = 0 then Except.ok 0
      else Except.ok (act'.nextOffset - 1)) = Except.ok off
    rw [hnext, if_neg (by omega : ¬ act.nextOffset + 1 = 0), hoff]
    simp

theorem Log.append_then_read (l : Log) (r : Record) (off : Nat) (l' : Log)
    (hwf : wfLog l) (hv : r.value.length + lenWidth < U64)
    (h : l.Append r = (.ok off, l')) :
    l'.Read off = .ok { offset := off, value := r.value } := by
  obtain ⟨hwfs, hpw⟩ := hwf
  obtain ⟨act, act', hl, ha, hcfg, hcases⟩ := Log.Append_ok_shape l r off l' h
  obtain ⟨hoff, _, _, _, _, _, hbase', hnext', _⟩ :=
    Segment.Append_ok_spec act r off act' ha
  have hdecomp : l.segments = l.segments.dropLast ++ [act] :=
    eq_dropLast_append _ _ hl
  have hmem : act ∈ l.segments := by rw [hdecomp]; simp
  have hwfa := hwfs act hmem
  have hseg_read := Segment.append_read act r off act' hwfa hv ha
  have hba : act.baseOffset ≤ act.nextOffset := hwfa.1
  have hskip : ∀ x ∈ l.segments.dropLast, coverB off x = false := by
    intro x hx
    have hle : x.nextOffset ≤ act.baseOffset := by
      have hpw' := hpw
      rw [hdecomp, List.pairwise_append] at hpw'
      exact hpw'.2.2 x hx act (by simp)
    simp only [coverB, Bool.and_eq_false_iff, decide_eq_false_iff_not]
    right
    omega
  have hcov : coverB off act' = true := by
    rw [coverB_true_iff, hbase', hnext']
    omega
  have hfind : l'.segments.find? (coverB off) = some act' := by
    rcases hcases with ⟨hm, hsegs⟩ | ⟨hm, hsegs⟩
    · rw [hsegs, List.append_assoc, find?_append_none _ _ _ hskip]
      exact List.find?_cons_of_pos _ hcov
    · rw [hsegs, find?_append_none _ _ _ hskip]
      exact List.find?_cons_of_pos _ hcov
  unfold Log.Read
  rw [hfind]
  change (if act'.nextOffset ≤ off then Except.error (GoErr.offsetOutOfRange off)
    else act'.Read off) = Except.ok { offset := off, value := r.value }
  rw [if_neg (by omega : ¬ act'.nextOffset ≤ off)]
  exact hseg_read

/-- The last segment of `logA1`, the appended-to active segment. -/
def actA1 : Segment := (logA1.segments.getLast?).getD (newSegmentFresh 0 cfgA)

/-- A fresh log under `cfgTinyIdx`, whose appends always fail. -/
def logT0 : Log := NewLog cfgTinyIdx

/-- `logT0` after a failed append. -/
def logT1 : Log := (logT0.Append (recA 0)).2

/-! ### Claim theorems -/

/-- C1: for every Log and every successful `Append(record)` returning
offset `off`, `HighestOffset()` invoked immediately after the Append
returns `off`, including when the append maxed the active segment and a
fresh segment was created. -/
theorem claim1_append_highest (l : Log) (r : Record) (off : Nat) (l' : Log)
    (h : l.Append r = (.ok off, l')) : l'.HighestOffset = .ok off :=
  highest_after_append l r off l' h

theorem claim1_witness : logA2.HighestOffset = .ok 1 :=
  claim1_append_highest logA1 (recA 1) 1 logA2 (by decide)

/-- C2: for every record `r`, if `Append(r)` on a well-formed Log
succeeds returning offset `off`, a subsequent `Read(off)` succeeds and
returns a record whose value equals `r.value`. -/
theorem claim2_append_read_value (l : Log) (r : Record) (off : Nat) (l' : Log)
    (hwf : wfLog l) (hv : r.value.length + lenWidth < U64)
    (h : l.Append r = (.ok off, l')) :
    ∃ r', l'.Read off = .ok r' ∧ r'.value = r.value :=
  ⟨{ offset := off, value := r.value },
    Log.append_then_read l r off l' hwf hv h, rfl⟩

theorem claim2_witness :
    ∃ r', logA1.Read 0 = .ok r' ∧ r'.value = (recA 0).value :=
  claim2_append_read_value logA0 (recA 0) 0 logA1 (by decide) (by decide)
    (by decide)

/-- C9: for every record successfully appended at offset `off` on a
well-formed Log, a subsequent `Read(off)` returns a record whose
`Offset` field equals `off` (Append stamps the assigned offset into the
record before serializing it). -/
theorem claim9_read_offset_field (l : Log) (r : Record) (off : Nat) (l' : Log)
    (hwf : wfLog l) (hv : r.value.length + lenWidth < U64)
    (h : l.Append r = (.ok off, l')) :
    ∃ r', l'.Read off = .ok r' ∧ r'.offset = off :=
  ⟨{ offset := off, value := r.value },
    Log.append_then_read l r off l' hwf hv h, rfl⟩

theorem claim9_witness :
    ∃ r', logA2.Read 1 = .ok r' ∧ r'.offset = 1 :=
  claim9_read_offset_field logA1 (recA 1) 1 logA2 (by decide) (by decide)
    (by decide)

/-- C5: if a successful Append returning `off` leaves the active segment
maxed, a new active segment exists whose `baseOffset` equals `off + 1`,
which equals the previous active segment's (post-append) `nextOffset`. -/
theorem claim5_maxed_new_segment (l : Log) (r : Record) (off : Nat) (l' : Log)
    (act : Segment) (hact : l.segments.getLast? = some act)
    (h : l.Append r = (.ok off, l'))
    (hmax : (act.Append r).2.IsMaxed = true) :
    l'.segments.getLast? = some (newSegmentFresh (off + 1) l.config) ∧
    (newSegmentFresh (off + 1) l.config).baseOffset = off + 1 ∧
    (act.Append r).2.nextOffset = off + 1 := by
  obtain ⟨act2, act', hl2, ha, hcfg, hcases⟩ := Log.Append_ok_shape l r off l' h
  have hacts : act2 = act := by
    rw [hact] at hl2
    exact (Option.some.injEq _ _ ▸ hl2).symm
  subst hacts
  obtain ⟨hoff, _, _, _, _, _, _, hnext, _⟩ := Segment.Append_ok_spec act2 r off act' ha
  have h2 : (act2.Append r).2 = act' := by rw [ha]
  rw [h2] at hmax ⊢
  rcases hcases with ⟨hm, hsegs⟩ | ⟨hm, hsegs⟩
  · refine ⟨?_, rfl, by omega⟩
    rw [hsegs, List.getLast?_concat]
  · rw [hm] at hmax
    exact absurd hmax (by simp)

theorem claim5_witness :
    logA2.segments.getLast? = some (newSegmentFresh (1 + 1) logA1.config) ∧
    (newSegmentFresh (1 + 1) logA1.config).baseOffset = 1 + 1 ∧
    (actA1.Append (recA 1)).2.nextOffset = 1 + 1 :=
  claim5_maxed_new_segment logA1 (recA 1) 1 logA2 actA1 (by decide)
    (by decide) (by decide)

/-- C7: a failed Append leaves every segment's `nextOffset` — and hence
`HighestOffset()` — unchanged; `nextOffset` is incremented only after
both the store write and the index write succeed. -/
theorem claim7_failed_append (l : Log) (r : Record) (e : GoErr) (l' : Log)
    (h : l.Append r = (.error e, l')) :
    l'.segments.map Segment.nextOffset = l.segments.map Segment.nextOffset ∧
    l'.HighestOffset = l.HighestOffset := by
  unfold Log.Append at h
  cases hl : l.segments.getLast? with
  | none =>
    simp only [hl, Prod.mk.injEq] at h
    rw [← h.2]
    exact ⟨rfl, rfl⟩
  | some act =>
    cases ha : act.Append r with
    | mk res act' =>
      simp only [hl, ha] at h
      cases res with
      | ok o =>
        by_cases hm : act'.IsMaxed
        · simp only [hm, if_pos] at h
          exact absurd h (by simp)
        · simp only [hm, Bool.false_eq_true, reduceIte] at h
          exact absurd h (by simp)
      | error e' =>
        simp only [Prod.mk.injEq, Except.error.injEq] at h
        obtain ⟨he, h2⟩ := h
        obtain ⟨hn, hb, hi, hc⟩ := Segment.Append_err_spec act r e' act' ha
        have hdecomp : l.segments = l.segments.dropLast ++ [act] :=
          eq_dropLast_append _ _ hl
        have hL : l'.segments = l.segments.dropLast ++ [act'] := by rw [← h2]
        constructor
        · rw [hL]
          conv_rhs => rw [hdecomp]
          simp [List.map_append, hn]
        · unfold Log.HighestOffset
          rw [hL, List.getLast?_concat, hl]
          change (if act'.nextOffset = 0 then Except.ok 0
              else Except.ok (act'.nextOffset - 1)) =
            (if act.nextOffset = 0 then Except.ok 0
              else Except.ok (act.nextOffset - 1))
          rw [hn]

theorem claim7_witness :
    logT1.segments.map Segment.nextOffset =
      logT0.segments.map Segment.nextOffset ∧
    logT1.HighestOffset = logT0.HighestOffset :=
  claim7_failed_append logT0 (recA 0) .eof logT1 (by decide)

theorem mem_of_getLast? {α : Type} {xs : List α} {a : α}
    (h : xs.getLast? = some a) : a ∈ xs := by
  rw [eq_dropLast_append xs a h]
  simp

/-- Truncation keeps the find-first covering segment for offsets above
the truncation point: every segment covering such an offset survives the
filter, so `Log.Read`'s scan is unaffected. -/
theorem find?_filter_keep (segs : List Segment) (L off : Nat) (hoff : L < off) :
    (segs.filter (fun s => !decide (s.nextOffset ≤ L + 1))).find? (coverB off) =
    segs.find? (coverB off) := by
  induction segs with
  | nil => rfl
  | cons a t ih =>
    by_cases hc : coverB off a = true
    · have hcov := (coverB_true_iff off a).mp hc
      have hp : (!decide (a.nextOffset ≤ L + 1)) = true := by
        simp only [Bool.not_eq_true', decide_eq_false_iff_not]
        omega
      have hf : List.filter (fun s => !decide (s.nextOffset ≤ L + 1)) (a :: t) =
          a :: List.filter (fun s => !decide (s.nextOffset ≤ L + 1)) t := by
        simp [List.filter_cons, hp]
      rw [hf]
      rw [List.find?_cons_of_pos _ hc, List.find?_cons_of_pos _ hc]
    · rw [List.find?_cons_of_neg _ hc]
      by_cases hp : (!decide (a.nextOffset ≤ L + 1)) = true
      · have hf : List.filter (fun s => !decide (s.nextOffset ≤ L + 1)) (a :: t) =
            a :: List.filter (fun s => !decide (s.nextOffset ≤ L + 1)) t := by
          simp [List.filter_cons, hp]
        rw [hf, List.find?_cons_of_neg _ hc]
        exact ih
      · have hf : List.filter (fun s => !decide (s.nextOffset ≤ L + 1)) (a :: t) =
            List.filter (fun s => !decide (s.nextOffset ≤ L + 1)) t := by
          simp only [Bool.not_eq_true] at hp
          simp [List.filter_cons, hp]
        rw [hf]
        exact ih

/-- C3 counterexample: in `logA4` (offsets 0..3, two records per
segment), `Truncate 2` keeps the segment covering offsets 2 and 3, so
`Read 2` with `2 ≤ L = 2` succeeds instead of returning
`OffsetOutOfRange` as the claim demands. -/
theorem claim3_counterexample :
    (logA4.Truncate 2).Read 2 = .ok { offset := 2, value := [12] } := by
  decide

/-- Every error of `index.Read` is `io.EOF`. -/
theorem Index.Read_error_eof (i : Index) (inp : Int) (e : GoErr)
    (h : i.Read inp = .error e) : e = .eof := by
  unfold Index.Read at h
  split at h
  · exact ((Except.error.injEq _ _).mp h).symm
  · simp only [] at h
    split at h <;> split at h <;>
      first
      | exact ((Except.error.injEq _ _).mp h).symm
      | exact absurd h (by simp)

/-- Every error of `store.Read` is `io.EOF`. -/
theorem Store.Read_failure_eof (s : Store) (pos : Nat) (e : GoErr)
    (h : s.Read pos = .error e) : e = .eof := by
  unfold Store.Read at h
  split at h
  · exact ((Except.error.injEq _ _).mp h).symm
  · simp only [] at h
    split at h <;>
      first
      | exact ((Except.error.injEq _ _).mp h).symm
      | exact absurd h (by simp)

/-- `segment.Read` never produces `ErrOffsetOutOfRange`: its failures come
from the index and store reads, which only fail with `io.EOF`. -/
theorem Segment.Read_no_oor (s : Segment) (off k : Nat) :
    s.Read off ≠ .error (.offsetOutOfRange k) := by
  intro hcontra
  unfold Segment.Read at hcontra
  split at hcontra
  · rename_i e heq
    have he := Index.Read_error_eof _ _ _ heq
    subst he
    simp at hcontra
  · rename_i v heq
    split at hcontra
    · rename_i e2 heq2
      have he := Store.Read_failure_eof _ _ _ heq2
      subst he
      simp at hcontra
    · simp at hcontra

/-- Under the pairwise segment-ordering invariant, at most one segment
value covers a given offset. -/
theorem cover_unique (segs : List Segment) (off : Nat)
    (hpw : segs.Pairwise (fun a b => a.nextOffset ≤ b.baseOffset))
    (x y : Segment) (hx : x ∈ segs) (hy : y ∈ segs)
    (hcx : coverB off x = true) (hcy : coverB off y = true) : x = y := by
  induction segs with
  | nil => cases hx
  | cons a t ih =>
    rw [List.pairwise_cons] at hpw
    rcases List.mem_cons.mp hx with rfl | hx'
    · rcases List.mem_cons.mp hy with rfl | hy'
      · rfl
      · have h1 := (coverB_true_iff off x).mp hcx
        have h2 := (coverB_true_iff off y).mp hcy
        have h3 := hpw.1 y hy'
        omega
    · rcases List.mem_cons.mp hy with rfl | hy'
      · have h1 := (coverB_true_iff off x).mp hcx
        have h2 := (coverB_true_iff off y).mp hcy
        have h3 := hpw.1 x hx'
        omega
      · exact ih hpw.2 hx' hy'

/-- C3 amended: after `Truncate(L)`, `Read(off)` with `off > L` returns
the same result as before truncation; `Read(off)` returns
`OffsetOutOfRange` exactly when no surviving segment covers `off`; and
on a well-formed log, an offset that a surviving segment still covers —
which can include offsets `≤ L`, as the counterexample shows — returns
the same result as before truncation rather than `OffsetOutOfRange`. -/
theorem claim3_amended (l : Log) (L off : Nat) :
    (L < off → (l.Truncate L).Read off = l.Read off) ∧
    ((l.Truncate L).Read off = .error (.offsetOutOfRange off) ↔
      ∀ s ∈ (l.Truncate L).segments, coverB off s = false) ∧
    (wfLog l → ∀ s ∈ (l.Truncate L).segments, coverB off s = true →
      (l.Truncate L).Read off = l.Read off) := by
  have hT : (l.Truncate L).segments =
      l.segments.filter (fun s => !decide (s.nextOffset ≤ L + 1)) := rfl
  refine ⟨?_, ⟨?_, ?_⟩, ?_⟩
  · intro hoff
    unfold Log.Read
    rw [hT, find?_filter_keep l.segments L off hoff]
  · intro hres s hs
    by_contra hc
    rw [Bool.not_eq_false] at hc
    have hsome : ((l.Truncate L).segments.find? (coverB off)).isSome :=
      List.find?_isSome.mpr ⟨s, hs, hc⟩
    obtain ⟨s', hf⟩ := Option.isSome_iff_exists.mp hsome
    have hcov' := (coverB_true_iff off s').mp (List.find?_some hf)
    have hval : (l.Truncate L).Read off = s'.Read off := by
      unfold Log.Read
      rw [hf]
      change (if s'.nextOffset ≤ off then Except.error (GoErr.offsetOutOfRange off)
        else s'.Read off) = s'.Read off
      rw [if_neg (by omega : ¬ s'.nextOffset ≤ off)]
    rw [hval] at hres
    exact Segment.Read_no_oor s' off off hres
  · intro hcov
    have hnone : (l.Truncate L).segments.find? (coverB off) = none :=
      List.find?_eq_none.mpr (fun x hx => by simp [hcov x hx])
    unfold Log.Read
    rw [hnone]
  · intro hwf s hs hc
    have hmem_l : s ∈ l.segments := by
      rw [hT] at hs
      exact List.mem_of_mem_filter hs
    have hpw_t : (l.Truncate L).segments.Pairwise
        (fun a b => a.nextOffset ≤ b.baseOffset) := by
      rw [hT]
      exact hwf.2.sublist (List.filter_sublist _)
    have hfl : l.segments.find? (coverB off) = some s := by
      cases hf : l.segments.find? (coverB off) with
      | none =>
        rw [List.find?_eq_none] at hf
        exact absurd hc (by simpa using hf s hmem_l)
      | some x =>
        rw [cover_unique l.segments off hwf.2 x s
          (List.mem_of_find?_eq_some hf) hmem_l (List.find?_some hf) hc]
    have hft : (l.Truncate L).segments.find? (coverB off) = some s := by
      cases hf : (l.Truncate L).segments.find? (coverB off) with
      | none =>
        rw [List.find?_eq_none] at hf
        exact absurd hc (by simpa using hf s hs)
      | some x =>
        rw [cover_unique (l.Truncate L).segments off hpw_t x s
          (List.mem_of_find?_eq_some hf) hs (List.find?_some hf) hc]
    unfold Log.Read
    rw [hfl, hft]

/-- The first surviving segment of `logA4.Truncate 2` (base offset 2),
which still covers offset 2. -/
def segB2 : Segment :=
  ((logA4.Truncate 2).segments.head?).getD (newSegmentFresh 0 cfgA)

theorem claim3_amended_witness :
    ((logA4.Truncate 2).Read 3 = logA4.Read 3) ∧
    ((logA4.Truncate 2).Read 0 = .error (.offsetOutOfRange 0)) ∧
    ((logA4.Truncate 2).Read 2 = logA4.Read 2) :=
  ⟨(claim3_amended logA4 2 3).1 (by decide),
   ((claim3_amended logA4 2 0).2.1).mpr (by decide),
   (claim3_amended logA4 2 2).2.2 (by decide) segB2 (by decide) (by decide)⟩

/-- C4 counterexample: on a freshly created (empty) log, `Truncate 0`
removes the sole — active — segment and leaves the segment list empty,
so truncating an empty log is not a no-op and the active segment is not
preserved. -/
theorem claim4_counterexample :
    (NewLog cfgA).segments.getLast? = some (newSegmentFresh 0 cfgA) ∧
    ((NewLog cfgA).Truncate 0).segments = [] := by
  decide

/-- C4 amended: `Truncate(lowest)` keeps exactly the segments with
`nextOffset > lowest + 1`, in order; the active (last) segment is
preserved if and only if its `nextOffset` exceeds `lowest + 1` — in
particular an empty log's sole segment (whose `nextOffset` equals its
`baseOffset`) is removed whenever `baseOffset ≤ lowest + 1`. -/
theorem claim4_amended (l : Log) (lowest : Nat) (act : Segment)
    (hact : l.segments.getLast? = some act) :
    ((l.Truncate lowest).segments.getLast? = some act ↔
      lowest + 1 < act.nextOffset) := by
  have hdecomp : l.segments = l.segments.dropLast ++ [act] :=
    eq_dropLast_append _ _ hact
  show (l.segments.filter (fun s => !decide (s.nextOffset ≤ lowest + 1))).getLast?
      = some act ↔ lowest + 1 < act.nextOffset
  constructor
  · intro hLast
    by_contra hn
    push_neg at hn
    have hmem : act ∈ l.segments.filter
        (fun s => !decide (s.nextOffset ≤ lowest + 1)) :=
      mem_of_getLast? hLast
    have hkeep := List.of_mem_filter hmem
    simp only [Bool.not_eq_true', decide_eq_false_iff_not] at hkeep
    omega
  · intro hlt
    have hp : (!decide (act.nextOffset ≤ lowest + 1)) = true := by
      simp only [Bool.not_eq_true', decide_eq_false_iff_not]
      omega
    conv_lhs => rw [hdecomp]
    have hsing : List.filter (fun s => !decide (s.nextOffset ≤ lowest + 1)) [act] =
        [act] := by
      simp [List.filter_cons, hp]
    rw [List.filter_append, hsing, List.getLast?_concat]

/-- The last segment of `logA4`. -/
def actA4 : Segment := (logA4.segments.getLast?).getD (newSegmentFresh 0 cfgA)

theorem claim4_amended_witness :
    ((logA4.Truncate 2).segments.getLast? = some actA4 ↔
      2 + 1 < actA4.nextOffset) :=
  claim4_amended logA4 2 actA4 (by decide)

/-- Reduction of `index.Read (-1)` on an index holding exactly `m ≥ 1`
entries: it returns the last entry. -/
theorem Index.Read_last (i : Index) (m : Nat) (hm : i.size = m * entWidth)
    (hm0 : 0 < m) :
    i.Read (-1) = .ok (decBE ((i.mmap.drop ((m - 1) * entWidth)).take offWidth),
      decBE ((i.mmap.drop ((m - 1) * entWidth + offWidth)).take posWidth)) := by
  unfold Index.Read
  rw [entWidth_eq] at hm ⊢
  rw [if_neg (by omega : ¬ i.size = 0)]
  have hout : i.size / 12 - 1 = m - 1 := by
    rw [hm, Nat.mul_div_cancel _ (by omega : 0 < 12)]
  have hcond : ((-1 : Int) = -1) = True := by simp
  simp only [hcond, if_true, hout]
  rw [if_neg (by omega : ¬ i.size < (m - 1) * 12 + 12)]

/-- Clean close followed by reopen recovers a well-formed segment's
`nextOffset` (and trivially its `baseOffset`): the close path truncates
the index file to its logical size, and `newSegment` recovers
`nextOffset` from the last index entry (`baseOffset + rel + 1`) or falls
back to `baseOffset` on an empty index. -/
theorem reopenSegment_spec (s : Segment) (hwf : wfSegment s) :
    (reopenSegment s).nextOffset = s.nextOffset ∧
    (reopenSegment s).baseOffset = s.baseOffset := by
  obtain ⟨hbn, hcnt, hnlt, hss, hslt, his, hsle, hml, hrel⟩ := hwf
  rw [entWidth_eq] at his
  set n := s.nextOffset - s.baseOffset with hn
  refine ⟨?_, rfl⟩
  unfold reopenSegment newSegmentFromFiles Index.Close
  simp only []
  have hlen_file : (s.index.mmap.take s.index.size).length = s.index.size := by
    simp only [List.length_take]
    omega
  by_cases h0 : n = 0
  · have hsz : s.index.size = 0 := by omega
    have hreopened : Index.Read
        { mmap := (s.index.mmap.take s.index.size).take s.config.MaxIndexBytes ++
            List.replicate (s.config.MaxIndexBytes -
              (s.index.mmap.take s.index.size).length) 0,
          size := (s.index.mmap.take s.index.size).length } (-1) = .error .eof := by
      unfold Index.Read
      rw [if_pos (by rw [hlen_file, hsz])]
    rw [hreopened]
    change s.baseOffset = s.nextOffset
    omega
  · have hsz : (s.index.mmap.take s.index.size).length = n * 12 := by
      rw [hlen_file, his]
      ring
    have hread : Index.Read
        { mmap := (s.index.mmap.take s.index.size).take s.config.MaxIndexBytes ++
            List.replicate (s.config.MaxIndexBytes -
              (s.index.mmap.take s.index.size).length) 0,
          size := (s.index.mmap.take s.index.size).length } (-1) =
        .ok (n - 1, decBE ((s.index.mmap.drop ((n - 1) * 12 + 4)).take 8)) := by
      rw [Index.Read_last _ n (by rw [hsz, entWidth_eq]) (by omega)]
      rw [entWidth_eq, offWidth_eq, posWidth_eq]
      have hfile : (s.index.mmap.take s.index.size).take s.config.MaxIndexBytes =
          s.index.mmap.take s.index.size := by
        apply List.take_of_length_le
        rw [hlen_file]
        omega
      rw [hfile]
      have hdt : ∀ p k : Nat, p + k ≤ s.index.size →
          ((s.index.mmap.take s.index.size ++
            List.replicate (s.config.MaxIndexBytes -
              (s.index.mmap.take s.index.size).length) 0).drop p).take k =
          (s.index.mmap.drop p).take k := by
        intro p k hpk
        rw [drop_take_append _ _ p k (by rw [hlen_file]; omega)]
        rw [List.drop_take]
        rw [List.take_take]
        congr 1
        omega
      rw [hdt _ _ (by rw [his]; omega), hdt _ _ (by rw [his]; omega)]
      have hout := hrel (n - 1) (by omega)
      rw [entWidth_eq, offWidth_eq] at hout
      rw [Nat.mul_comm 12 (n - 1)] at hout
      rw [hout]
    rw [hread]
    change s.baseOffset + (n - 1) + 1 = s.nextOffset
    omega

/-- C6: closing a well-formed Log cleanly and reopening it from the same
directory restores the tail: `HighestOffset()` after reopen equals its
value before the close, and each reopened segment's `nextOffset` is
recovered as `baseOffset + last_rel_offset + 1` (or `baseOffset` for an
empty index), the close path having truncated the index file to its
logical size. -/
theorem claim6_reopen_highest (l : Log) (hwf : wfLog l) :
    (reopenLog l).HighestOffset = l.HighestOffset ∧
    ∀ s ∈ l.segments, (reopenSegment s).nextOffset = s.nextOffset := by
  have hpres : ∀ s ∈ l.segments, (reopenSegment s).nextOffset = s.nextOffset :=
    fun s hs => (reopenSegment_spec s (hwf.1 s hs)).1
  refine ⟨?_, hpres⟩
  unfold Log.HighestOffset reopenLog
  simp only []
  rw [List.getLast?_map]
  cases hl : l.segments.getLast? with
  | none => rfl
  | some a =>
    simp only [Option.map_some']
    have ha := hpres a (mem_of_getLast? hl)
    change (if (reopenSegment a).nextOffset = 0 then Except.ok 0
        else Except.ok ((reopenSegment a).nextOffset - 1)) =
      (if a.nextOffset = 0 then Except.ok 0 else Except.ok (a.nextOffset - 1))
    rw [ha]

theorem claim6_witness :
    (reopenLog logA2).HighestOffset = logA2.HighestOffset ∧
    ∀ s ∈ logA2.segments, (reopenSegment s).nextOffset = s.nextOffset :=
  claim6_reopen_highest logA2 (by decide)

/-- C8: in the `ConsumeStream` handler, an `ErrOffsetOutOfRange` consume
result never terminates the stream — the loop continues with the same
request offset, so a finite run of such iterations returns nothing and
leaves the offset unchanged — and a fired stream context makes the
handler terminate returning nil. -/
theorem claim8_consume_stream :
    (∀ inp off k, inp.ctxDone = false →
      inp.consume = .error (.offsetOutOfRange k) →
      consumeStreamStep inp off = .cont off) ∧
    (∀ inp off, inp.ctxDone = true → consumeStreamStep inp off = .ret none) ∧
    (∀ inputs off,
      (∀ inp ∈ inputs, inp.ctxDone = false ∧
        ∃ k, inp.consume = .error (.offsetOutOfRange k)) →
      consumeStreamRun inputs off = (none, off)) := by
  refine ⟨?_, ?_, ?_⟩
  · intro inp off k h1 h2
    unfold consumeStreamStep
    rw [if_neg (by simp [h1]), h2]
  · intro inp off h
    unfold consumeStreamStep
    rw [if_pos h]
  · intro inputs
    induction inputs with
    | nil => intro off h; rfl
    | cons a t ih =>
      intro off h
      obtain ⟨hd, k, hk⟩ := h a (by simp)
      have hstep : consumeStreamStep a off = .cont off := by
        unfold consumeStreamStep
        rw [if_neg (by simp [hd]), hk]
      unfold consumeStreamRun
      rw [hstep]
      exact ih off (fun inp hi => h inp (by simp [hi]))

theorem claim8_witness :
    consumeStreamStep ⟨false, .error (.offsetOutOfRange 5), none⟩ 5 = .cont 5 ∧
    consumeStreamStep ⟨true, .ok ⟨0, []⟩, none⟩ 3 = .ret none ∧
    consumeStreamRun [⟨false, .error (.offsetOutOfRange 5), none⟩,
      ⟨false, .error (.offsetOutOfRange 5), none⟩] 5 = (none, 5) :=
  ⟨claim8_consume_stream.1 _ 5 5 rfl rfl,
   claim8_consume_stream.2.1 _ 3 rfl,
   claim8_consume_stream.2.2 _ 5 (by
     intro inp hi
     simp only [List.mem_cons, List.not_mem_nil, or_false] at hi
     rcases hi with h | h <;> subst h <;> exact ⟨rfl, 5, rfl⟩)⟩

/-- A config with a positive `InitialOffset`, for the C10 witness. -/
def cfgB : Config := ⟨18, 36, 7⟩

/-- C10: a freshly created empty log's `HighestOffset()` is `0` when the
configured `InitialOffset` is `0` — the same value it returns after one
successful append — and is `InitialOffset - 1` when `InitialOffset > 0`,
strictly less than `LowestOffset()`; the empty log is thus not
distinguishable from a one-record log through `HighestOffset` alone. -/
theorem claim10_fresh_log_highest (c : Config) :
    (c.InitialOffset = 0 →
      (NewLog c).HighestOffset = .ok 0 ∧
      ∀ r off l', (NewLog c).Append r = (.ok off, l') →
        l'.HighestOffset = .ok 0) ∧
    (0 < c.InitialOffset →
      (NewLog c).HighestOffset = .ok (c.InitialOffset - 1) ∧
      (NewLog c).LowestOffset = .ok c.InitialOffset ∧
      c.InitialOffset - 1 < c.InitialOffset) := by
  have hhi : (NewLog c).HighestOffset =
      (if c.InitialOffset = 0 then Except.ok 0
       else Except.ok (c.InitialOffset - 1)) := rfl
  constructor
  · intro h0
    constructor
    · rw [hhi, if_pos h0]
    · intro r off l' hap
      have hh := highest_after_append (NewLog c) r off l' hap
      obtain ⟨act, act', hl, ha, _, _⟩ := Log.Append_ok_shape (NewLog c) r off l' hap
      have hact : act = newSegmentFresh c.InitialOffset (NewLog c).config := by
        have : (NewLog c).segments.getLast? =
            some (newSegmentFresh c.InitialOffset (NewLog c).config) := rfl
        rw [this] at hl
        exact (Option.some.injEq _ _ ▸ hl).symm
      have hoff := (Segment.Append_ok_spec act r off act' ha).1
      rw [hact] at hoff
      have : off = 0 := by
        rw [hoff]
        exact h0
      rw [this] at hh
      exact hh
  · intro hpos
    refine ⟨?_, rfl, by omega⟩
    rw [hhi, if_neg (by omega)]

theorem claim10_witness :
    (NewLog cfgA).HighestOffset = .ok 0 ∧
    logA1.HighestOffset = .ok 0 ∧
    (NewLog cfgB).HighestOffset = .ok (7 - 1) ∧
    (NewLog cfgB).LowestOffset = .ok 7 :=
  ⟨((claim10_fresh_log_highest cfgA).1 (by decide)).1,
   ((claim10_fresh_log_highest cfgA).1 (by decide)).2 (recA 0) 0 logA1 (by decide),
   ((claim10_fresh_log_highest cfgB).2 (by decide)).1,
   ((claim10_fresh_log_highest cfgB).2 (by decide)).2.1⟩

end Dislog
